import Mathlib

/-!
Shallow embedding of the tab/shortcut membership subsystem of the
"eclipse-new-tab" browser extension (src/script.js), together with proofs
about its behaviour.  Persistent state lives under the keys `shortcuts`
(flat list of shortcut records), `tabs` (list of tab records, each with an
ordered membership list of shortcut ids) and `activeTab` (id of the tab
whose members are rendered).  The JS functions modelled here are
`loadTabs`, `loadShortcuts` (whose reconciliation loop rebuilds the
tab-membership partition), `saveToLocalStorage`, `addShortcut`, the
save/delete click handlers of the shortcut modal, `deleteTab`,
`openAddTabModal` (delete-button visibility), `updateVisibleShortcuts`,
`handleTabDragStart` and `handleTabDrop`.  DOM element identity is modelled
by record position / id, anchors carry exactly the (id, name, url) triple
they were created from, and nondeterministic id generation
(`Date.now() + Math.random()`) is modelled by explicit parameters.
-/

namespace EclipseNewTab

/-- A shortcut record, as stored under the `shortcuts` key and as carried by
a rendered anchor element (`dataset.shortcutId`, label text, href). -/
structure Shortcut where
  id : String
  name : String
  url : String
deriving Repr, DecidableEq

/-- A tab record, as stored under the `tabs` key: id, display name, and the
ordered list of member shortcut ids. -/
structure Tab where
  id : String
  name : String
  shortcuts : List String
deriving Repr, DecidableEq

/-- The reserved name of the default tab. -/
def ungroupedName : String := "Ungrouped"

/-- First index of an element satisfying `p` (models JS `Array.findIndex` /
`Array.indexOf`, with `none` for `-1`). -/
def idxOf? {α : Type} (p : α → Bool) : List α → Option Nat
  | [] => none
  | x :: xs => if p x then some 0 else (idxOf? p xs).map (· + 1)

/-- Appends `sid` to the membership list of the tab at index `i` (models
`tab.shortcuts.push(shortcutId)` on the tab object found in `state.tabs`). -/
def pushShortcut : List Tab → Nat → String → List Tab
  | [], _, _ => []
  | t :: ts, 0, sid => { t with shortcuts := t.shortcuts ++ [sid] } :: ts
  | t :: ts, i + 1, sid => t :: pushShortcut ts i sid

/-- Removes the first occurrence of `sid` from a membership list (models
`indexOf` followed by `splice(index, 1)`; absent ids leave the list as is). -/
def removeFirst : List String → String → List String
  | [], _ => []
  | x :: xs, sid => if x = sid then xs else x :: removeFirst xs sid

/-! ## `loadTabs` -/

/-- What `loadTabs` leaves behind: the in-memory `state.tabs` and
`state.activeTabId`, plus the pair written back by `saveTabs` when the
correction branch ran (`none` when nothing was persisted). -/
structure LoadTabsResult where
  tabs : List Tab
  activeTabId : Option String
  persisted : Option (List Tab × Option String)
deriving Repr, DecidableEq

/-- `loadTabs` (script.js:1153): reads the stored tab list and active-tab id;
when no tab named "Ungrouped" exists it unshifts a fresh one, makes it active
if no active tab is set, and persists via `saveTabs`.  `now` models
`Date.now()`; a falsy stored active id is modelled as `none`. -/
def loadTabs (storedTabs : List Tab) (storedActive : Option String) (now : Nat) :
    LoadTabsResult :=
  match storedTabs.find? (fun t => t.name == ungroupedName) with
  | some _ => { tabs := storedTabs, activeTabId := storedActive, persisted := none }
  | none =>
    let ungroupedTab : Tab :=
      { id := "ungrouped_" ++ toString now, name := ungroupedName, shortcuts := [] }
    let tabs' := ungroupedTab :: storedTabs
    let active' := match storedActive with
      | none => some ungroupedTab.id
      | some a => some a
    { tabs := tabs', activeTabId := active', persisted := some (tabs', active') }

/-! ## `deleteTab` and the tab modal's delete button -/

/-- `deleteTab` (script.js:839): after the user confirms, filters the tab out
of `state.tabs` unconditionally (there is no default-tab guard in this
function); if the deleted tab was active, the first remaining tab becomes
active, and when no tab remains the active pointer becomes null. -/
def deleteTab (tabs : List Tab) (activeTabId : Option String) (tabId : String)
    (confirmed : Bool) : List Tab × Option String :=
  if confirmed = false then (tabs, activeTabId)
  else
    let tabs' := tabs.filter (fun t => !(t.id == tabId))
    match tabs' with
    | [] => ([], none)
    | t :: rest =>
      if activeTabId = some tabId then (t :: rest, some t.id) else (t :: rest, activeTabId)

/-- Whether `openAddTabModal` (script.js:770) displays the Delete button:
only in edit mode with a tab id, and hidden when the tab found by that id is
named "Ungrouped". -/
def deleteTabBtnVisible (tabs : List Tab) (edit : Bool) (tabId : Option String) : Bool :=
  match edit, tabId with
  | true, some tid =>
    match tabs.find? (fun t => t.id == tid) with
    | some t => !(t.name == ungroupedName)
    | none => true
  | _, _ => false

/-! ## `updateVisibleShortcuts` (the Active-Tab View Filter) -/

/-- `updateVisibleShortcuts` (script.js:1118): given the rendered shortcut
ids `allIds` (in container order), returns the ids whose elements end up with
`display: flex`.  With an active tab id that resolves to a tab, its members
are shown; with an active id that resolves to nothing, nothing is shown; with
no active id, the Ungrouped tab's members are shown when that tab exists,
else every shortcut is shown. -/
def updateVisibleShortcuts (tabs : List Tab) (activeTabId : Option String)
    (allIds : List String) : List String :=
  match activeTabId with
  | some aid =>
    match tabs.find? (fun t => t.id == aid) with
    | some activeTab => allIds.filter (fun sid => activeTab.shortcuts.contains sid)
    | none => []
  | none =>
    match tabs.find? (fun t => t.name == ungroupedName) with
    | some ung => allIds.filter (fun sid => ung.shortcuts.contains sid)
    | none => allIds

/-! ## Tab drag and drop -/

/-- `handleTabDragStart` (script.js:1487), started from the idle state
(`state.draggedItem = null`): returns the dragged-item state after the event.
Dragging the tab found by the element's id is refused (stays idle) when that
tab is named "Ungrouped". -/
def handleTabDragStart (tabs : List Tab) (tabId : String) : Option String :=
  match tabs.find? (fun t => t.id == tabId) with
  | some t => if t.name == ungroupedName then none else some tabId
  | none => some tabId

/-- ECMAScript `Array.prototype.splice(i, 0, x)`: inserts `x` at `i`, where a
negative `i` counts from the end (clamped at 0) and a large `i` is clamped at
the length. -/
def spliceInsert (l : List Tab) (i : Int) (x : Tab) : List Tab :=
  let n : Int := l.length
  let start : Nat := if i < 0 then (max (n + i) 0).toNat else (min i n).toNat
  l.take start ++ x :: l.drop start

/-- The guard of `handleTabDrop`: the drop target is rejected when the tab
found by the target element's id is named "Ungrouped". -/
def isUngroupedTarget (tabs : List Tab) (targetId : String) : Bool :=
  match tabs.find? (fun t => t.id == targetId) with
  | some t => t.name == ungroupedName
  | none => false

/-- `handleTabDrop` (script.js:1555) acting on `state.tabs` when a tab
element is dropped on another tab element.  Element identity
(`state.draggedItem === this`) is modelled as id equality, and the DOM order
of the non-default tab buttons is the order of the non-"Ungrouped" records in
`state.tabs` (as `renderTabs` produces).  Returns the tab list saved by
`saveTabs` (unchanged when the drop is rejected). -/
def handleTabDrop (tabs : List Tab) (draggedId targetId : String) : List Tab :=
  if draggedId = targetId then tabs
  else if isUngroupedTarget tabs targetId then tabs
  else
    let tabElements := (tabs.filter (fun t => !(t.name == ungroupedName))).map (·.id)
    match idxOf? (fun x => x == draggedId) tabElements,
          idxOf? (fun x => x == targetId) tabElements with
    | some draggedIndex, some droppedIndex =>
      match tabs.find? (fun t => t.id == draggedId),
            tabs.find? (fun t => t.id == targetId) with
      | some draggedTab, some droppedTab =>
        let ungroupedTab := tabs.find? (fun t => t.name == ungroupedName)
        let otherTabs := tabs.filter
          (fun t => !(t.name == ungroupedName) && !(t.id == draggedId))
        let droppedTabIndex : Int :=
          match idxOf? (fun t => t.id == droppedTab.id) otherTabs with
          | some k => (k : Int)
          | none => -1
        let newOther :=
          if draggedIndex < droppedIndex then
            spliceInsert otherTabs (droppedTabIndex + 1) draggedTab
          else
            spliceInsert otherTabs droppedTabIndex draggedTab
        match ungroupedTab with
        | some u => u :: newOther
        | none => newOther
      | _, _ => tabs
    | _, _ => tabs

/-! ## Shortcut repository: saving, adding, deleting -/

/-- Whole in-memory application state touched by the shortcut handlers:
the rendered shortcut records (container order), `state.tabs` and
`state.activeTabId`. -/
structure AppState where
  shortcuts : List Shortcut
  tabs : List Tab
  activeTabId : Option String
deriving Repr, DecidableEq

/-- Lower-cases an ASCII letter, as the case-insensitive regex flag does. -/
def lowerChar (c : Char) : Char :=
  if c.val ≥ 65 ∧ c.val ≤ 90 then Char.ofNat (c.toNat + 32) else c

/-- The test `/^https?:\/\//i.test(url)` of the shortcut save handler
(script.js:1272). -/
def hasHttpScheme (url : String) : Bool :=
  let cs := url.data.map lowerChar
  decide (cs.take 7 = "http://".data) || decide (cs.take 8 = "https://".data)

/-- Whitespace as stripped by JS `String.prototype.trim`. -/
def isWsChar (c : Char) : Bool :=
  decide (c = ' ' ∨ c = '\t' ∨ c = '\n' ∨ c = '\r')

/-- JS `String.prototype.trim`: strips whitespace from both ends. -/
def trimChars (s : String) : String :=
  { data := ((s.data.dropWhile isWsChar).reverse.dropWhile isWsChar).reverse }

/-- Removes the first occurrence of `sid` from the membership list of the tab
at index `i` (models `indexOf` + `splice(index, 1)` on that tab object). -/
def removeFromTabAt : List Tab → Nat → String → List Tab
  | [], _, _ => []
  | t :: ts, 0, sid => { t with shortcuts := removeFirst t.shortcuts sid } :: ts
  | t :: ts, i + 1, sid => t :: removeFromTabAt ts i sid

/-- `addShortcut` (script.js:440): appends the new anchor at the end of the
container (so the persisted `shortcuts` list gains the record at the end),
pushes the fresh id into the tab selected by `targetTabId || activeTabId`
when that tab exists, else into the first tab named "Ungrouped" when no tab
id is available, then persists.  `newId` models `Date.now().toString()`. -/
def addShortcutOp (st : AppState) (name url newId : String)
    (targetTabId : Option String) : AppState :=
  let shortcuts' := st.shortcuts ++ [{ id := newId, name := name, url := url }]
  let tabId := match targetTabId with
    | some tid => some tid
    | none => st.activeTabId
  let tabs' :=
    match tabId with
    | some tid =>
      match idxOf? (fun t => t.id == tid) st.tabs with
      | some i => pushShortcut st.tabs i newId
      | none => st.tabs
    | none =>
      match idxOf? (fun t => t.name == ungroupedName) st.tabs with
      | some i => pushShortcut st.tabs i newId
      | none => st.tabs
  { shortcuts := shortcuts', tabs := tabs', activeTabId := st.activeTabId }

/-- The add branch of the shortcut modal's save handler (script.js:1263,
`state.isEditing = false`): trims the inputs, aborts on an empty name or
url, normalizes the url when it carries no http(s) scheme, calls
`addShortcut`, then — when tabs exist (so the tab select element is present,
with value `selectedTabId`) — moves the fresh id from the active tab to the
selected tab and makes the selected tab active when it differs. -/
def saveNewShortcut (st : AppState) (rawName rawUrl newId selectedTabId : String) :
    AppState :=
  let name := trimChars rawName
  let url0 := trimChars rawUrl
  if name = "" ∨ url0 = "" then st
  else
    let url := if hasHttpScheme url0 then url0 else "https://" ++ url0
    let st1 := addShortcutOp st name url newId none
    if st1.tabs.length > 0 then
      let tabs2 :=
        match st1.activeTabId with
        | some aid =>
          match idxOf? (fun t => t.id == aid) st1.tabs with
          | some i => removeFromTabAt st1.tabs i newId
          | none => st1.tabs
        | none => st1.tabs
      match idxOf? (fun t => t.id == selectedTabId) tabs2 with
      | some i =>
        let tabs3 := pushShortcut tabs2 i newId
        let active' :=
          if st1.activeTabId = some selectedTabId then st1.activeTabId
          else some selectedTabId
        { shortcuts := st1.shortcuts, tabs := tabs3, activeTabId := active' }
      | none => { shortcuts := st1.shortcuts, tabs := tabs2, activeTabId := st1.activeTabId }
    else st1

/-- Strips the first occurrence of `sid` from every tab's membership list
(the loop of the delete handler, script.js:1367). -/
def removeShortcutFromTabs (tabs : List Tab) (sid : String) : List Tab :=
  tabs.map (fun t => { t with shortcuts := removeFirst t.shortcuts sid })

/-- Removes the record rendered by the deleted element (the first record
carrying its id) from the persisted shortcut list. -/
def removeShortcutRecord : List Shortcut → String → List Shortcut
  | [], _ => []
  | s :: ss, sid => if s.id = sid then ss else s :: removeShortcutRecord ss sid

/-- The shortcut modal's Delete handler (script.js:1361): removes the edited
element's id from every tab and persists the tabs, then removes the element
and persists the remaining shortcut records. -/
def deleteShortcutHandler (st : AppState) (sid : String) : AppState :=
  { shortcuts := removeShortcutRecord st.shortcuts sid,
    tabs := if st.tabs.length > 0 then removeShortcutFromTabs st.tabs sid else st.tabs,
    activeTabId := st.activeTabId }

/-! ## `loadShortcuts`: id resolution and the Membership Reconciler -/

/-- Resolves stored shortcut ids from position `n` on: a record with a falsy
(empty) id gets the freshly generated id `gen n` (`id || Date.now()...`,
script.js:294); others keep theirs. -/
def resolveIdsFrom (gen : Nat → String) : Nat → List Shortcut → List Shortcut
  | _, [] => []
  | n, s :: ss =>
    { s with id := if s.id = "" then gen n else s.id } :: resolveIdsFrom gen (n + 1) ss

/-- The anchors `loadShortcuts` (script.js:271) renders, in container order:
the stored records with resolved ids. -/
def loadShortcutsResolve (items : List Shortcut) (gen : Nat → String) : List Shortcut :=
  resolveIdsFrom gen 0 items

/-- `saveToLocalStorage` (script.js:254): reads every rendered anchor back
into an `{id, name, url}` record, in container order.  An anchor carries the
id, label and url it was created from (the browser's href canonicalization
is outside this model). -/
def saveToLocalStorage (rendered : List Shortcut) : List Shortcut :=
  rendered.map (fun el => { id := el.id, name := el.name, url := el.url })

/-- JS `Map.prototype.set` on an association list with unique keys: replaces
the value of an existing key in place, else appends the new entry. -/
def mapSet : List (String × String) → String → String → List (String × String)
  | [], k, v => [(k, v)]
  | p :: m, k, v => if p.1 = k then (k, v) :: m else p :: mapSet m k v

/-- JS `Map.prototype.get` (`none` for a missing key). -/
def mapGet (m : List (String × String)) (k : String) : Option String :=
  (m.find? (fun p => p.1 == k)).map (·.2)

/-- The `existingTabAssignments` map of `loadShortcuts` (script.js:278):
for every tab in order, every member shortcut id is mapped to that tab's id;
`Map.set` overwrites, so the last tab holding an id wins. -/
def buildAssignments (tabs : List Tab) : List (String × String) :=
  tabs.foldl (fun m tab =>
    if tab.shortcuts.length > 0 then
      tab.shortcuts.foldl (fun m' sid => mapSet m' sid tab.id) m
    else m) []

/-- Clearing every tab's membership list before the rebuild
(script.js:288). -/
def clearShortcuts (tabs : List Tab) : List Tab :=
  tabs.map (fun t => { t with shortcuts := [] })

/-- The index of the tab that receives a given shortcut id: the tab found by
the remembered owning tab id when that tab still exists, else the captured
Ungrouped tab (script.js:343). -/
def targetIdx (assign : List (String × String)) (ungroupedIdx : Option Nat)
    (tabs : List Tab) (sid : String) : Option Nat :=
  match mapGet assign sid with
  | some tabId =>
    match idxOf? (fun t => t.id == tabId) tabs with
    | some i => some i
    | none => ungroupedIdx
  | none => ungroupedIdx

/-- One iteration of the rebuild loop: pushes `sid` into its target tab, or
drops it when there is no target (no prior owner and no Ungrouped tab). -/
def reconcileStep (assign : List (String × String)) (ungroupedIdx : Option Nat)
    (tabs : List Tab) (sid : String) : List Tab :=
  match targetIdx assign ungroupedIdx tabs sid with
  | some i => pushShortcut tabs i sid
  | none => tabs

/-- The rebuild loop over the resolved shortcut ids in stored order. -/
def reconcileLoop (assign : List (String × String)) (ungroupedIdx : Option Nat)
    (tabs : List Tab) (ids : List String) : List Tab :=
  ids.foldl (reconcileStep assign ungroupedIdx) tabs

/-- The Membership Reconciler inside `loadShortcuts` (script.js:271): capture
the Ungrouped tab and the prior assignments, clear every membership list,
then reassign every resolved shortcut id in order.  The result is what
`saveTabs` persists at script.js:364. -/
def reconcile (tabs : List Tab) (ids : List String) : List Tab :=
  let assign := buildAssignments tabs
  let ungroupedIdx := idxOf? (fun t => t.name == ungroupedName) tabs
  reconcileLoop assign ungroupedIdx (clearShortcuts tabs) ids

/-- The tab list `loadShortcuts` persists, given the stored shortcut records
and the id generator. -/
def loadShortcutsTabs (items : List Shortcut) (gen : Nat → String)
    (tabs : List Tab) : List Tab :=
  reconcile tabs ((loadShortcutsResolve items gen).map (·.id))

/-- The concatenation of every tab's membership list (the "union of all
tabs' shortcuts lists"). -/
def allMembers : List Tab → List String
  | [] => []
  | t :: ts => t.shortcuts ++ allMembers ts

/-- The target index of `reconcile tabs ids` for a shortcut id, computed
against the original tab list. -/
def reconTarget (tabs : List Tab) (sid : String) : Option Nat :=
  targetIdx (buildAssignments tabs) (idxOf? (fun t => t.name == ungroupedName) tabs)
    tabs sid

/-! ## C1: the `loadTabs` default-tab invariant -/

/-- C1, counterexample: a persisted state in which a tab named "Ungrouped"
already exists but sits at index 1 is loaded unchanged, so after `loadTabs`
the default tab is not at index 0 (and nothing is persisted), refuting the
claim for corrupted initial states. -/
theorem loadTabs_misplaced_default_cex :
    ¬ ((loadTabs [⟨"a", "A", []⟩, ⟨"u", "Ungrouped", []⟩] (some "a") 0).tabs[0]?.map
        (fun t => t.name) = some ungroupedName) ∧
    (loadTabs [⟨"a", "A", []⟩, ⟨"u", "Ungrouped", []⟩] (some "a") 0).persisted = none := by
  decide

/-- C1 (amended): when the persisted tab list holds no tab named
"Ungrouped" (e.g. an empty store), `loadTabs` synthesizes exactly one
default tab, places it at index 0, makes it active when no active tab was
set (otherwise the stored active id is kept), and persists the corrected
pair before returning.  A persisted state that already holds a tab named
"Ungrouped" — even misplaced or duplicated — is returned unchanged. -/
theorem loadTabs_creates_default (storedTabs : List Tab) (storedActive : Option String)
    (now : Nat) (h : storedTabs.find? (fun t => t.name == ungroupedName) = none) :
    ((loadTabs storedTabs storedActive now).tabs.countP
        (fun t => t.name == ungroupedName) = 1) ∧
    ((loadTabs storedTabs storedActive now).tabs[0]?.map (fun t => t.name) =
        some ungroupedName) ∧
    (storedActive = none →
      (loadTabs storedTabs storedActive now).activeTabId =
        some ("ungrouped_" ++ toString now)) ∧
    (∀ a, storedActive = some a →
      (loadTabs storedTabs storedActive now).activeTabId = some a) ∧
    ((loadTabs storedTabs storedActive now).persisted =
      some ((loadTabs storedTabs storedActive now).tabs,
            (loadTabs storedTabs storedActive now).activeTabId)) := by
  have hall : ∀ t ∈ storedTabs, ¬ ((t.name == ungroupedName) = true) :=
    List.find?_eq_none.mp h
  have hz : storedTabs.countP (fun t => t.name == ungroupedName) = 0 :=
    List.countP_eq_zero.mpr hall
  cases storedActive <;>
    simp [loadTabs, h, List.countP_cons, hz]

/-- C1, witness: on an empty store `loadTabs` produces the single default
tab at index 0, activates it and persists. -/
theorem loadTabs_creates_default_witness :
    ((loadTabs [] none 5).tabs.countP (fun t => t.name == ungroupedName) = 1) ∧
    ((loadTabs [] none 5).tabs[0]?.map (fun t => t.name) = some ungroupedName) ∧
    ((loadTabs [] none 5).activeTabId = some ("ungrouped_" ++ toString 5)) := by
  obtain ⟨h1, h2, h3, _, _⟩ := loadTabs_creates_default [] none 5 (by decide)
  exact ⟨h1, h2, h3 rfl⟩

/-! ## C6: deleting the default tab -/

/-- After confirmation, `deleteTab` always persists the filtered tab list. -/
theorem deleteTab_fst (tabs : List Tab) (active : Option String) (tid : String) :
    (deleteTab tabs active tid true).1 = tabs.filter (fun t => !(t.id == tid)) := by
  unfold deleteTab
  cases hf : tabs.filter (fun t => !(t.id == tid)) with
  | nil => simp [hf]
  | cons t rest =>
    simp only [hf, Bool.true_eq_false, if_false]
    split <;> rfl

/-- C6, counterexample: `deleteTab`, invoked (and confirmed) with the default
tab's id, removes the default tab — the tab list does not stay unchanged and
no error value exists in the code. -/
theorem deleteTab_default_cex :
    (deleteTab [⟨"u", "Ungrouped", []⟩, ⟨"a", "A", []⟩] (some "u") "u" true).1 ≠
      [⟨"u", "Ungrouped", []⟩, ⟨"a", "A", []⟩] := by decide

/-- C6 (amended): `deleteTab` itself has no default-tab guard — invoked with
the default tab's id it filters that tab out of the list.  The protection is
purely that `openAddTabModal` hides the Delete button when the edited tab is
named "Ungrouped", so the UI offers no way to trigger the call. -/
theorem deleteTab_default_unguarded (tabs : List Tab) (active : Option String)
    (did : String) (u : Tab)
    (hfind : tabs.find? (fun t => t.id == did) = some u)
    (hname : u.name = ungroupedName) :
    deleteTabBtnVisible tabs true (some did) = false ∧
    (deleteTab tabs active did true).1 = tabs.filter (fun t => !(t.id == did)) := by
  refine ⟨?_, deleteTab_fst tabs active did⟩
  simp [deleteTabBtnVisible, hfind, hname]

/-- C6, witness: for the default tab at the head of the list the Delete
button is hidden, and a direct confirmed `deleteTab` call removes it. -/
theorem deleteTab_default_unguarded_witness :
    deleteTabBtnVisible [⟨"u", "Ungrouped", []⟩, ⟨"a", "A", []⟩] true (some "u") = false ∧
    (deleteTab [⟨"u", "Ungrouped", []⟩, ⟨"a", "A", []⟩] (some "u") "u" true).1 =
      ([⟨"u", "Ungrouped", []⟩, ⟨"a", "A", []⟩] : List Tab).filter
        (fun t => !(t.id == "u")) :=
  deleteTab_default_unguarded [⟨"u", "Ungrouped", []⟩, ⟨"a", "A", []⟩] (some "u") "u"
    ⟨"u", "Ungrouped", []⟩ (by decide) rfl

/-! ## C7: the Active-Tab View Filter -/

/-- C7, counterexample: with an active tab id that resolves to no tab, the
filter shows nothing at all instead of falling back to the default tab's
membership list. -/
theorem updateVisibleShortcuts_dangling_cex :
    updateVisibleShortcuts [⟨"u", "Ungrouped", ["s"]⟩] (some "zz") ["s"] ≠ ["s"] ∧
    updateVisibleShortcuts [⟨"u", "Ungrouped", ["s"]⟩] (some "zz") ["s"] = [] := by
  decide

/-- C7 (amended): when the active tab id resolves to a tab, exactly its
members are visible; when the active id is set but resolves to no tab,
nothing is visible; when no active id is set, the default tab's members are
visible when a default tab exists, else every shortcut is visible. -/
theorem updateVisibleShortcuts_spec (tabs : List Tab) (activeTabId : Option String)
    (allIds : List String) :
    (∀ aid t, activeTabId = some aid → tabs.find? (fun t' => t'.id == aid) = some t →
      updateVisibleShortcuts tabs activeTabId allIds =
        allIds.filter (fun sid => t.shortcuts.contains sid)) ∧
    (∀ aid, activeTabId = some aid → tabs.find? (fun t => t.id == aid) = none →
      updateVisibleShortcuts tabs activeTabId allIds = []) ∧
    (∀ u, activeTabId = none → tabs.find? (fun t => t.name == ungroupedName) = some u →
      updateVisibleShortcuts tabs activeTabId allIds =
        allIds.filter (fun sid => u.shortcuts.contains sid)) ∧
    (activeTabId = none → tabs.find? (fun t => t.name == ungroupedName) = none →
      updateVisibleShortcuts tabs activeTabId allIds = allIds) := by
  refine ⟨?_, ?_, ?_, ?_⟩
  · intro aid t ha hf
    subst ha
    simp [updateVisibleShortcuts, hf]
  · intro aid ha hf
    subst ha
    simp [updateVisibleShortcuts, hf]
  · intro u ha hf
    subst ha
    simp [updateVisibleShortcuts, hf]
  · intro ha hf
    subst ha
    simp [updateVisibleShortcuts, hf]

/-- C7, witness: the four cases of the amended filter at concrete inputs. -/
theorem updateVisibleShortcuts_spec_witness :
    updateVisibleShortcuts [⟨"u", "Ungrouped", ["s"]⟩] (some "u") ["s", "t"] = ["s"] ∧
    updateVisibleShortcuts [⟨"u", "Ungrouped", ["s"]⟩] (some "zz") ["s", "t"] = [] ∧
    updateVisibleShortcuts [⟨"u", "Ungrouped", ["s"]⟩] none ["s", "t"] = ["s"] ∧
    updateVisibleShortcuts [] none ["s", "t"] = ["s", "t"] := by
  refine ⟨?_, ?_, ?_, ?_⟩
  · exact ((updateVisibleShortcuts_spec [⟨"u", "Ungrouped", ["s"]⟩] (some "u")
      ["s", "t"]).1 "u" ⟨"u", "Ungrouped", ["s"]⟩ rfl (by decide)).trans (by decide)
  · exact (updateVisibleShortcuts_spec [⟨"u", "Ungrouped", ["s"]⟩] (some "zz")
      ["s", "t"]).2.1 "zz" rfl (by decide)
  · exact ((updateVisibleShortcuts_spec [⟨"u", "Ungrouped", ["s"]⟩] none
      ["s", "t"]).2.2.1 ⟨"u", "Ungrouped", ["s"]⟩ rfl (by decide)).trans (by decide)
  · exact (updateVisibleShortcuts_spec [] none ["s", "t"]).2.2.2 rfl (by decide)

/-! ## C9: the load/save round trip on the stored shortcut list -/

/-- Records whose ids are non-empty are resolved to themselves. -/
theorem resolveIdsFrom_eq_self (gen : Nat → String) (items : List Shortcut)
    (h : ∀ s ∈ items, s.id ≠ "") : ∀ n, resolveIdsFrom gen n items = items := by
  induction items with
  | nil => intro n; rfl
  | cons s ss ih =>
    intro n
    simp only [resolveIdsFrom]
    rw [if_neg (h s (.head _)), ih (fun t ht => h t (.tail _ ht)) (n + 1)]

/-- Reading the rendered anchors back yields exactly their records. -/
theorem saveToLocalStorage_id (rendered : List Shortcut) :
    saveToLocalStorage rendered = rendered :=
  List.map_id rendered

/-- C9, counterexample: a stored record with an empty (missing) id gets a
freshly generated id on load, so saving the loaded list changes the stored
value. -/
theorem roundtrip_regenerated_id_cex :
    saveToLocalStorage (loadShortcutsResolve [⟨"", "a", "https://a.com"⟩]
      (fun i => "gen" ++ toString i)) ≠ [⟨"", "a", "https://a.com"⟩] := by decide

/-- C9 (amended): when every stored record carries a non-empty id, loading
the shortcut list and saving the rendered result leaves the stored value
byte-identical (anchor urls are modelled as stored; the browser's href
canonicalization is outside the model). -/
theorem roundtrip_preserves_stored (items : List Shortcut) (gen : Nat → String)
    (h : ∀ s ∈ items, s.id ≠ "") :
    saveToLocalStorage (loadShortcutsResolve items gen) = items := by
  rw [saveToLocalStorage_id]
  exact resolveIdsFrom_eq_self gen items h 0

/-- C9, witness: a list with non-empty ids survives the round trip. -/
theorem roundtrip_preserves_stored_witness :
    saveToLocalStorage (loadShortcutsResolve
        [⟨"s1", "a", "https://a.com"⟩, ⟨"s2", "b", "https://b.com"⟩]
        (fun i => "gen" ++ toString i)) =
      [⟨"s1", "a", "https://a.com"⟩, ⟨"s2", "b", "https://b.com"⟩] :=
  roundtrip_preserves_stored _ _ (by decide)

/-! ## C10: deleting a shortcut preserves the membership partition -/

/-- After removing the first occurrence, a duplicate-free list no longer
contains the id. -/
theorem not_mem_removeFirst (l : List String) (sid : String) (h : l.Nodup) :
    sid ∉ removeFirst l sid := by
  induction l with
  | nil => simp [removeFirst]
  | cons x xs ih =>
    rw [List.nodup_cons] at h
    simp only [removeFirst]
    split
    · next heq => subst heq; exact h.1
    · next hne =>
      intro hmem
      rcases List.mem_cons.mp hmem with h1 | h2
      · exact hne h1.symm
      · exact ih h.2 h2

/-- Removing one id does not disturb membership of any other id. -/
theorem mem_removeFirst_iff (l : List String) (sid x : String) (hx : x ≠ sid) :
    x ∈ removeFirst l sid ↔ x ∈ l := by
  induction l with
  | nil => simp [removeFirst]
  | cons y ys ih =>
    simp only [removeFirst]
    split
    · next heq => subst heq; simp [hx]
    · next hne => simp [ih]

/-- C10: the delete handler strips the deleted id from every tab (when each
tab's membership list is duplicate-free, as the data model requires) and
leaves every other id's membership untouched, tab by tab; the same list is
what `saveTabs` persists. -/
theorem deleteShortcut_partition (st : AppState) (sid : String)
    (hnd : ∀ t ∈ st.tabs, t.shortcuts.Nodup) :
    (∀ t ∈ (deleteShortcutHandler st sid).tabs, sid ∉ t.shortcuts) ∧
    (∀ x, x ≠ sid → ∀ (i : Nat) (t : Tab), st.tabs[i]? = some t →
      ∃ t' : Tab, (deleteShortcutHandler st sid).tabs[i]? = some t' ∧ t'.id = t.id ∧
        (x ∈ t'.shortcuts ↔ x ∈ t.shortcuts)) := by
  have htabs : (deleteShortcutHandler st sid).tabs = removeShortcutFromTabs st.tabs sid := by
    unfold deleteShortcutHandler
    cases h : st.tabs with
    | nil => simp [removeShortcutFromTabs]
    | cons t ts => simp
  rw [htabs]
  constructor
  · intro t ht
    unfold removeShortcutFromTabs at ht
    obtain ⟨t0, ht0, rfl⟩ := List.mem_map.mp ht
    exact not_mem_removeFirst _ _ (hnd t0 ht0)
  · intro x hx i t hit
    refine ⟨{ t with shortcuts := removeFirst t.shortcuts sid }, ?_, rfl, ?_⟩
    · unfold removeShortcutFromTabs
      rw [List.getElem?_map, hit]
      rfl
    · exact mem_removeFirst_iff _ _ _ hx

/-- C10, witness: after deleting "s1", the default tab (the sole tab of the
handler's result) no longer holds "s1". -/
theorem deleteShortcut_partition_witness :
    "s1" ∉ (⟨"u", "Ungrouped", ["s2"]⟩ : Tab).shortcuts := by
  exact (deleteShortcut_partition
    ⟨[⟨"s1", "a", "https://a.com"⟩, ⟨"s2", "b", "https://b.com"⟩],
     [⟨"u", "Ungrouped", ["s1", "s2"]⟩], some "u"⟩ "s1" (by decide)).1
    ⟨"u", "Ungrouped", ["s2"]⟩ (by decide)

/-! ## C5: the default tab cannot be dragged, dropped on, or displaced -/

/-- C5: with the default tab at index 0 (the `loadTabs` invariant), a
dragstart on the default tab leaves the gesture idle, a drop whose target is
the default tab leaves the tab list unchanged, and no drop whatsoever moves
the default tab away from index 0. -/
theorem default_tab_drag_immunity (tabs : List Tab) (u : Tab)
    (hhead : tabs.head? = some u) (hu : u.name = ungroupedName) :
    handleTabDragStart tabs u.id = none ∧
    (∀ draggedId, handleTabDrop tabs draggedId u.id = tabs) ∧
    (∀ draggedId targetId, (handleTabDrop tabs draggedId targetId).head? = some u) := by
  obtain ⟨ts, rfl⟩ : ∃ ts, tabs = u :: ts := by
    cases tabs with
    | nil => simp at hhead
    | cons a ts =>
      simp only [List.head?_cons, Option.some.injEq] at hhead
      exact ⟨ts, by rw [hhead]⟩
  refine ⟨?_, ?_, ?_⟩
  · simp [handleTabDragStart, hu]
  · intro draggedId
    by_cases hd : draggedId = u.id
    · simp [handleTabDrop, hd]
    · simp [handleTabDrop, hd, isUngroupedTarget, hu]
  · intro draggedId targetId
    unfold handleTabDrop
    have hfu : (u :: ts).find? (fun t => t.name == ungroupedName) = some u :=
      List.find?_cons_of_pos _ (by simp [hu])
    simp only [hfu]
    repeat' split
    all_goals rfl

/-- C5, witness: the default tab at the head of a two-tab list refuses a
dragstart and rejects a drop of the other tab onto it. -/
theorem default_tab_drag_immunity_witness :
    handleTabDragStart [⟨"u", "Ungrouped", []⟩, ⟨"a", "A", []⟩] "u" = none ∧
    handleTabDrop [⟨"u", "Ungrouped", []⟩, ⟨"a", "A", []⟩] "a" "u" =
      [⟨"u", "Ungrouped", []⟩, ⟨"a", "A", []⟩] := by
  have h := default_tab_drag_immunity [⟨"u", "Ungrouped", []⟩, ⟨"a", "A", []⟩]
    ⟨"u", "Ungrouped", []⟩ rfl rfl
  exact ⟨h.1, h.2.1 "a"⟩

/-! ## C4: a valid drop reorders the non-default tabs -/

/-- C4: with tab order [Ungrouped, A, B, C] and pairwise distinct ids,
dropping dragged tab A onto C (a forward move) yields [Ungrouped, B, C, A]
— A is removed from the non-default tabs and reinserted right after C, with
the default tab prepended — and dropping C onto A (a backward move)
reinserts the dragged tab at the target's position, yielding
[Ungrouped, C, A, B]. -/
theorem handleTabDrop_reorders (u a b c : Tab)
    (hu : u.name = ungroupedName)
    (ha : a.name ≠ ungroupedName) (hb : b.name ≠ ungroupedName)
    (hc : c.name ≠ ungroupedName)
    (hua : u.id ≠ a.id) (hub : u.id ≠ b.id) (huc : u.id ≠ c.id)
    (hab : a.id ≠ b.id) (hac : a.id ≠ c.id) (hbc : b.id ≠ c.id) :
    handleTabDrop [u, a, b, c] a.id c.id = [u, b, c, a] ∧
    handleTabDrop [u, a, b, c] c.id a.id = [u, c, a, b] := by
  have nu : (u.name == ungroupedName) = true := by simp [hu]
  have na : (a.name == ungroupedName) = false := by simp [ha]
  have nb : (b.name == ungroupedName) = false := by simp [hb]
  have nc : (c.name == ungroupedName) = false := by simp [hc]
  have e1 : (u.id == a.id) = false := by simp [hua]
  have e2 : (u.id == b.id) = false := by simp [hub]
  have e3 : (u.id == c.id) = false := by simp [huc]
  have e4 : (a.id == b.id) = false := by simp [hab]
  have e5 : (a.id == c.id) = false := by simp [hac]
  have e6 : (b.id == c.id) = false := by simp [hbc]
  have e7 : (a.id == u.id) = false := by simp [Ne.symm hua]
  have e8 : (b.id == u.id) = false := by simp [Ne.symm hub]
  have e9 : (c.id == u.id) = false := by simp [Ne.symm huc]
  have e10 : (b.id == a.id) = false := by simp [Ne.symm hab]
  have e11 : (c.id == a.id) = false := by simp [Ne.symm hac]
  have e12 : (c.id == b.id) = false := by simp [Ne.symm hbc]
  constructor
  · simp [handleTabDrop, isUngroupedTarget, idxOf?, spliceInsert, List.find?, List.filter,
      nu, na, nb, nc, e1, e2, e3, e4, e5, e6, e7, e8, e9, e10, e11, e12, hac]
  · simp [handleTabDrop, isUngroupedTarget, idxOf?, spliceInsert, List.find?, List.filter,
      nu, na, nb, nc, e1, e2, e3, e4, e5, e6, e7, e8, e9, e10, e11, e12, Ne.symm hac]

/-- C4, witness: the concrete forward and backward drops. -/
theorem handleTabDrop_reorders_witness :
    handleTabDrop [⟨"u", "Ungrouped", []⟩, ⟨"a", "A", []⟩, ⟨"b", "B", []⟩, ⟨"c", "C", []⟩]
        "a" "c" =
      [⟨"u", "Ungrouped", []⟩, ⟨"b", "B", []⟩, ⟨"c", "C", []⟩, ⟨"a", "A", []⟩] ∧
    handleTabDrop [⟨"u", "Ungrouped", []⟩, ⟨"a", "A", []⟩, ⟨"b", "B", []⟩, ⟨"c", "C", []⟩]
        "c" "a" =
      [⟨"u", "Ungrouped", []⟩, ⟨"c", "C", []⟩, ⟨"a", "A", []⟩, ⟨"b", "B", []⟩] :=
  handleTabDrop_reorders ⟨"u", "Ungrouped", []⟩ ⟨"a", "A", []⟩ ⟨"b", "B", []⟩ ⟨"c", "C", []⟩
    rfl (by decide) (by decide) (by decide) (by decide) (by decide) (by decide)
    (by decide) (by decide) (by decide)

/-! ## The reconciler: supporting lemmas -/

/-- `pushShortcut` changes only the entry at the pushed index, appending the
id to its membership list. -/
theorem pushShortcut_getElem? (tabs : List Tab) (i : Nat) (sid : String) (j : Nat) :
    (pushShortcut tabs i sid)[j]? =
      if i = j then (tabs[j]?).map (fun t => { t with shortcuts := t.shortcuts ++ [sid] })
      else tabs[j]? := by
  induction tabs generalizing i j with
  | nil => simp [pushShortcut]
  | cons t ts ih =>
    cases i with
    | zero =>
      cases j with
      | zero => simp [pushShortcut]
      | succ j1 => simp [pushShortcut]
    | succ i1 =>
      cases j with
      | zero => simp [pushShortcut]
      | succ j1 => simpa [pushShortcut] using ih i1 j1

/-- `pushShortcut` preserves every tab's id. -/
theorem pushShortcut_map_id (tabs : List Tab) (i : Nat) (sid : String) :
    (pushShortcut tabs i sid).map (fun t => t.id) = tabs.map (fun t => t.id) := by
  induction tabs generalizing i with
  | nil => rfl
  | cons t ts ih =>
    cases i with
    | zero => rfl
    | succ i1 => simp [pushShortcut, ih i1]

/-- `pushShortcut` preserves every tab's name. -/
theorem pushShortcut_map_name (tabs : List Tab) (i : Nat) (sid : String) :
    (pushShortcut tabs i sid).map (fun t => t.name) = tabs.map (fun t => t.name) := by
  induction tabs generalizing i with
  | nil => rfl
  | cons t ts ih =>
    cases i with
    | zero => rfl
    | succ i1 => simp [pushShortcut, ih i1]

/-- Searching a mapped list is searching the original with the composed
predicate. -/
theorem idxOf?_map {α β : Type} (f : α → β) (p : β → Bool) (l : List α) :
    idxOf? p (l.map f) = idxOf? (fun x => p (f x)) l := by
  induction l with
  | nil => rfl
  | cons x xs ih => simp only [List.map_cons, idxOf?, ih]

/-- A found index is within bounds. -/
theorem idxOf?_lt_length {α : Type} (p : α → Bool) (l : List α) (i : Nat)
    (h : idxOf? p l = some i) : i < l.length := by
  induction l generalizing i with
  | nil => simp [idxOf?] at h
  | cons x xs ih =>
    simp only [idxOf?] at h
    split at h
    · cases h
      simp
    · cases hi : idxOf? p xs with
      | none => rw [hi] at h; simp at h
      | some k =>
        rw [hi] at h
        simp at h
        subst h
        have := ih k hi
        simpa using Nat.succ_lt_succ this

/-- The reassignment target depends on the current tab list only through its
ids. -/
theorem targetIdx_congr (assign : List (String × String)) (uIdx : Option Nat)
    (tabs1 tabs2 : List Tab)
    (h : tabs1.map (fun t => t.id) = tabs2.map (fun t => t.id)) (sid : String) :
    targetIdx assign uIdx tabs1 sid = targetIdx assign uIdx tabs2 sid := by
  unfold targetIdx
  cases mapGet assign sid with
  | none => rfl
  | some tid =>
    have hidx : idxOf? (fun t => t.id == tid) tabs1 = idxOf? (fun t => t.id == tid) tabs2 := by
      rw [← idxOf?_map (fun t => t.id) (fun s => s == tid) tabs1,
          ← idxOf?_map (fun t => t.id) (fun s => s == tid) tabs2, h]
    dsimp only
    rw [hidx]

/-- One reconciliation step preserves every tab's id. -/
theorem reconcileStep_map_id (assign : List (String × String)) (uIdx : Option Nat)
    (tabs : List Tab) (sid : String) :
    (reconcileStep assign uIdx tabs sid).map (fun t => t.id) =
      tabs.map (fun t => t.id) := by
  unfold reconcileStep
  cases targetIdx assign uIdx tabs sid with
  | none => rfl
  | some i => exact pushShortcut_map_id tabs i sid

/-- One reconciliation step preserves every tab's name. -/
theorem reconcileStep_map_name (assign : List (String × String)) (uIdx : Option Nat)
    (tabs : List Tab) (sid : String) :
    (reconcileStep assign uIdx tabs sid).map (fun t => t.name) =
      tabs.map (fun t => t.name) := by
  unfold reconcileStep
  cases targetIdx assign uIdx tabs sid with
  | none => rfl
  | some i => exact pushShortcut_map_name tabs i sid

/-- Pointwise description of the rebuild loop: every tab ends up with its
previous members followed by exactly the processed ids targeted at it. -/
theorem reconcileLoop_getElem? (assign : List (String × String)) (uIdx : Option Nat)
    (ids : List String) :
    ∀ (tabs : List Tab) (j : Nat),
      (reconcileLoop assign uIdx tabs ids)[j]? =
        (tabs[j]?).map (fun t =>
          { t with shortcuts := t.shortcuts ++
              ids.filter (fun sid => decide (targetIdx assign uIdx tabs sid = some j)) }) := by
  induction ids with
  | nil =>
    intro tabs j
    cases h : tabs[j]? <;> simp [reconcileLoop, h, List.filter]
  | cons sid ids ih =>
    intro tabs j
    have hloop : reconcileLoop assign uIdx tabs (sid :: ids) =
        reconcileLoop assign uIdx (reconcileStep assign uIdx tabs sid) ids := rfl
    rw [hloop, ih]
    have hT : ∀ x, targetIdx assign uIdx (reconcileStep assign uIdx tabs sid) x =
        targetIdx assign uIdx tabs x :=
      fun x => targetIdx_congr _ _ _ _ (reconcileStep_map_id assign uIdx tabs sid) x
    simp only [hT]
    unfold reconcileStep
    cases ht : targetIdx assign uIdx tabs sid with
    | none =>
      cases hjt : tabs[j]? <;> simp [List.filter, ht, hjt]
    | some i =>
      rw [pushShortcut_getElem?]
      by_cases hij : i = j
      · subst hij
        cases hjt : tabs[i]? <;> simp [List.filter, ht, hjt]
      · cases hjt : tabs[j]? <;> simp [List.filter, ht, hjt, hij]

/-- Pointwise description of the whole reconciler: every tab keeps its id and
name and receives exactly the resolved ids targeted at its index, in stored
order. -/
theorem reconcile_getElem? (tabs : List Tab) (ids : List String) (j : Nat) :
    (reconcile tabs ids)[j]? =
      (tabs[j]?).map (fun t =>
        { t with shortcuts :=
            ids.filter (fun sid => decide (reconTarget tabs sid = some j)) }) := by
  unfold reconcile
  rw [reconcileLoop_getElem?]
  have hc : (clearShortcuts tabs).map (fun t => t.id) = tabs.map (fun t => t.id) := by
    simp [clearShortcuts]
  have hT : ∀ x, targetIdx (buildAssignments tabs)
      (idxOf? (fun t => t.name == ungroupedName) tabs) (clearShortcuts tabs) x =
      reconTarget tabs x :=
    fun x => targetIdx_congr _ _ _ _ hc x
  simp only [hT]
  unfold clearShortcuts
  rw [List.getElem?_map]
  cases tabs[j]? <;> simp

/-- Membership in the concatenated membership lists. -/
theorem mem_allMembers (sid : String) :
    ∀ l : List Tab, sid ∈ allMembers l ↔ ∃ t ∈ l, sid ∈ t.shortcuts := by
  intro l
  induction l with
  | nil => simp [allMembers]
  | cons t ts ih => simp [allMembers, ih]

/-- A shortcut id sits in the reconciled tab at index `j` exactly when it is
a resolved id whose target is `j`. -/
theorem mem_reconcile_shortcuts (tabs : List Tab) (ids : List String) (j : Nat)
    (tj : Tab) (hj : (reconcile tabs ids)[j]? = some tj) (sid : String) :
    sid ∈ tj.shortcuts ↔ sid ∈ ids ∧ reconTarget tabs sid = some j := by
  rw [reconcile_getElem?] at hj
  cases h0 : tabs[j]? with
  | none => rw [h0] at hj; simp at hj
  | some t0 =>
    rw [h0] at hj
    simp only [Option.map_some', Option.some.injEq] at hj
    subst hj
    simp [List.mem_filter]

/-- A reconciliation target is always a valid index. -/
theorem reconTarget_lt_length (tabs : List Tab) (sid : String) (j : Nat)
    (h : reconTarget tabs sid = some j) : j < tabs.length := by
  unfold reconTarget targetIdx at h
  cases hm : mapGet (buildAssignments tabs) sid with
  | none =>
    rw [hm] at h
    exact idxOf?_lt_length _ _ _ h
  | some tid =>
    rw [hm] at h
    dsimp only at h
    cases hf : idxOf? (fun t => t.id == tid) tabs with
    | some i =>
      rw [hf] at h
      cases h
      exact idxOf?_lt_length _ _ _ hf
    | none =>
      rw [hf] at h
      exact idxOf?_lt_length _ _ _ h

/-- With an Ungrouped tab present, every shortcut id has a target. -/
theorem reconTarget_some_of_ungrouped (tabs : List Tab) (sid : String)
    (hU : (idxOf? (fun t => t.name == ungroupedName) tabs).isSome) :
    ∃ j, reconTarget tabs sid = some j := by
  obtain ⟨u0, hu0⟩ := Option.isSome_iff_exists.mp hU
  unfold reconTarget targetIdx
  cases hm : mapGet (buildAssignments tabs) sid with
  | none => exact ⟨u0, by rw [hu0]⟩
  | some tid =>
    cases hf : idxOf? (fun t => t.id == tid) tabs with
    | some i => exact ⟨i, by dsimp only; rw [hf]⟩
    | none => exact ⟨u0, by dsimp only; rw [hf, hu0]⟩

/-- C2: when a tab named "Ungrouped" exists (as `loadTabs` guarantees), the
reconciler of `loadShortcuts` produces a partition — the union of all tabs'
membership lists is exactly the set of resolved shortcut ids of the
repository, and no id lands in two distinct tabs. -/
theorem reconcile_partition (items : List Shortcut) (gen : Nat → String)
    (tabs : List Tab)
    (hU : (idxOf? (fun t => t.name == ungroupedName) tabs).isSome) :
    (∀ sid, sid ∈ allMembers (loadShortcutsTabs items gen tabs) ↔
      sid ∈ (loadShortcutsResolve items gen).map (fun s => s.id)) ∧
    (∀ (i j : Nat) (ti tj : Tab), i ≠ j →
      (loadShortcutsTabs items gen tabs)[i]? = some ti →
      (loadShortcutsTabs items gen tabs)[j]? = some tj →
      ∀ sid, sid ∈ ti.shortcuts → sid ∉ tj.shortcuts) := by
  set ids := (loadShortcutsResolve items gen).map (fun s => s.id) with hids
  have hL : loadShortcutsTabs items gen tabs = reconcile tabs ids := rfl
  rw [hL]
  constructor
  · intro sid
    rw [mem_allMembers]
    constructor
    · rintro ⟨t, ht, hmem⟩
      obtain ⟨j, hj⟩ := List.mem_iff_getElem?.mp ht
      exact ((mem_reconcile_shortcuts tabs ids j t hj sid).mp hmem).1
    · intro hmem
      obtain ⟨j, hj⟩ := reconTarget_some_of_ungrouped tabs sid hU
      have hlt : j < tabs.length := reconTarget_lt_length tabs sid j hj
      cases h0 : tabs[j]? with
      | none =>
        rw [List.getElem?_eq_none_iff] at h0
        omega
      | some t0 =>
        have hrj : (reconcile tabs ids)[j]? =
            some
              { t0 with
                shortcuts := ids.filter (fun s => decide (reconTarget tabs s = some j)) } := by
          rw [reconcile_getElem?, h0]
          rfl
        refine ⟨_, List.mem_iff_getElem?.mpr ⟨j, hrj⟩, ?_⟩
        rw [mem_reconcile_shortcuts tabs ids j _ hrj sid]
        exact ⟨hmem, hj⟩
  · intro i j ti tj hij hi hj sid hmi hmj
    have h1 := (mem_reconcile_shortcuts tabs ids i ti hi sid).mp hmi
    have h2 := (mem_reconcile_shortcuts tabs ids j tj hj sid).mp hmj
    exact hij (Option.some.inj (h1.2.symm.trans h2.2))

/-- C2, witness: a concrete reconciliation — an id kept by its tab, an id of
a vanished tab and a brand-new id all appear exactly once. -/
theorem reconcile_partition_witness :
    "s3" ∈ allMembers (loadShortcutsTabs
      [⟨"s1", "a", "https://a.com"⟩, ⟨"s2", "b", "https://b.com"⟩,
       ⟨"s3", "c", "https://c.com"⟩]
      (fun i => "gen" ++ toString i)
      [⟨"u", "Ungrouped", ["s1"]⟩, ⟨"w", "Work", ["s2"]⟩]) :=
  ((reconcile_partition
      [⟨"s1", "a", "https://a.com"⟩, ⟨"s2", "b", "https://b.com"⟩,
       ⟨"s3", "c", "https://c.com"⟩]
      (fun i => "gen" ++ toString i)
      [⟨"u", "Ungrouped", ["s1"]⟩, ⟨"w", "Work", ["s2"]⟩]
      (by decide)).1 "s3").mpr (by decide)

/-! ## C3: idempotence of the reconciler -/

/-- The owner that the `existingTabAssignments` map remembers for an id: the
last tab (in list order) whose membership list holds it. -/
def lastOwner : List Tab → String → Option String
  | [], _ => none
  | t :: ts, sid =>
    match lastOwner ts sid with
    | some x => some x
    | none => if sid ∈ t.shortcuts then some t.id else none

/-- Reading an association list after one `Map.set`. -/
theorem mapGet_cons (p : String × String) (m : List (String × String)) (k : String) :
    mapGet (p :: m) k = if p.1 = k then some p.2 else mapGet m k := by
  by_cases h : p.1 = k
  · simp [mapGet, List.find?, h]
  · have hb : (p.1 == k) = false := by simp [h]
    simp [mapGet, List.find?, h, hb]

/-- `Map.set` updates exactly the written key. -/
theorem mapGet_mapSet (m : List (String × String)) (k v k' : String) :
    mapGet (mapSet m k v) k' = if k' = k then some v else mapGet m k' := by
  induction m with
  | nil =>
    rw [show mapSet [] k v = [(k, v)] from rfl, mapGet_cons]
    by_cases h : k' = k
    · simp [h]
    · rw [if_neg (fun he : k = k' => h he.symm), if_neg h]
  | cons p m ih =>
    simp only [mapSet]
    by_cases h1 : p.1 = k
    · rw [if_pos h1, mapGet_cons, mapGet_cons]
      by_cases h2 : k' = k
      · simp [h2]
      · have h2s : ¬ k = k' := fun he => h2 he.symm
        have h3 : ¬ p.1 = k' := fun he => h2 (he.symm.trans h1)
        simp [h2, h2s, h3]
    · rw [if_neg h1, mapGet_cons, mapGet_cons, ih]
      by_cases h3 : p.1 = k'
      · have h4 : ¬ k' = k := fun he => h1 (h3.trans he)
        simp [h3, h4]
      · simp [h3]

/-- Folding one tab's membership list into the map writes that tab as owner
of each of its members. -/
theorem mapGet_innerFold (tid sid : String) :
    ∀ (shortcuts : List String) (m : List (String × String)),
      mapGet (shortcuts.foldl (fun m' s => mapSet m' s tid) m) sid =
        if sid ∈ shortcuts then some tid else mapGet m sid := by
  intro shortcuts
  induction shortcuts with
  | nil => intro m; simp
  | cons s ss ih =>
    intro m
    simp only [List.foldl_cons]
    rw [ih (mapSet m s tid), mapGet_mapSet]
    by_cases h1 : sid ∈ ss
    · simp [h1]
    · by_cases h2 : sid = s <;> simp [h1, h2]

/-- Folding all tabs into the map realizes the last-owner-wins view. -/
theorem mapGet_buildAssignments_aux (sid : String) :
    ∀ (tabs : List Tab) (m : List (String × String)),
      mapGet (tabs.foldl (fun m' tab =>
        if tab.shortcuts.length > 0 then
          tab.shortcuts.foldl (fun m2 s => mapSet m2 s tab.id) m'
        else m') m) sid =
      match lastOwner tabs sid with
      | some x => some x
      | none => mapGet m sid := by
  intro tabs
  induction tabs with
  | nil => intro m; rfl
  | cons t ts ih =>
    intro m
    simp only [List.foldl_cons]
    rw [ih]
    have hbody : mapGet (if t.shortcuts.length > 0 then
        t.shortcuts.foldl (fun m2 s => mapSet m2 s t.id) m else m) sid =
        if sid ∈ t.shortcuts then some t.id else mapGet m sid := by
      by_cases hl : t.shortcuts.length > 0
      · rw [if_pos hl, mapGet_innerFold]
      · rw [if_neg hl]
        have hne : t.shortcuts = [] := List.eq_nil_of_length_eq_zero (by omega)
        simp [hne]
    simp only [lastOwner]
    cases h : lastOwner ts sid with
    | some x => rfl
    | none =>
      dsimp only
      rw [hbody]
      by_cases hmem : sid ∈ t.shortcuts <;> simp [hmem]

/-- The assignments map built by `loadShortcuts` remembers, for every id,
the last tab holding it. -/
theorem mapGet_buildAssignments (tabs : List Tab) (sid : String) :
    mapGet (buildAssignments tabs) sid = lastOwner tabs sid := by
  unfold buildAssignments
  rw [mapGet_buildAssignments_aux]
  cases lastOwner tabs sid <;> rfl

/-- An id has no remembered owner exactly when no tab holds it. -/
theorem lastOwner_eq_none_iff (sid : String) :
    ∀ l : List Tab, lastOwner l sid = none ↔ ∀ t ∈ l, sid ∉ t.shortcuts := by
  intro l
  induction l with
  | nil => simp [lastOwner]
  | cons t ts ih =>
    simp only [lastOwner, List.mem_cons]
    cases h : lastOwner ts sid with
    | some x =>
      dsimp only
      constructor
      · intro hc; cases hc
      · intro hall
        exfalso
        have h2 : lastOwner ts sid = none := ih.mpr (fun t2 ht2 => hall t2 (Or.inr ht2))
        rw [h] at h2
        cases h2
    | none =>
      dsimp only
      have hts := ih.mp h
      constructor
      · intro hc t2 ht2
        rcases ht2 with rfl | hmem2
        · intro hsid
          rw [if_pos hsid] at hc
          cases hc
        · exact hts t2 hmem2
      · intro hall
        rw [if_neg (fun hsid => hall t (Or.inl rfl) hsid)]

/-- When exactly one tab (at index `j`) holds an id, the remembered owner is
that tab. -/
theorem lastOwner_eq_of_unique (sid : String) :
    ∀ (l : List Tab) (j : Nat) (t : Tab), l[j]? = some t → sid ∈ t.shortcuts →
      (∀ (k : Nat) (tk : Tab), l[k]? = some tk → sid ∈ tk.shortcuts → k = j) →
      lastOwner l sid = some t.id := by
  intro l
  induction l with
  | nil => intro j t hj; simp at hj
  | cons t0 ts ih =>
    intro j t hj hmem huniq
    cases j with
    | zero =>
      simp only [List.getElem?_cons_zero, Option.some.injEq] at hj
      subst hj
      have hnone : lastOwner ts sid = none := by
        rw [lastOwner_eq_none_iff]
        intro t2 ht2 hmem2
        obtain ⟨k, hk⟩ := List.mem_iff_getElem?.mp ht2
        have hk0 := huniq (k + 1) t2 (by simpa using hk) hmem2
        omega
      simp only [lastOwner]
      rw [hnone]
      dsimp only
      rw [if_pos hmem]
    | succ j1 =>
      have hj1 : ts[j1]? = some t := by simpa using hj
      have huniq1 : ∀ (k : Nat) (tk : Tab), ts[k]? = some tk → sid ∈ tk.shortcuts →
          k = j1 := by
        intro k tk hk hmemk
        have hk1 := huniq (k + 1) tk (by simpa using hk) hmemk
        omega
      have hts := ih j1 t hj1 hmem huniq1
      simp only [lastOwner]
      rw [hts]

/-- With duplicate-free tab ids, searching a tab's id finds its index. -/
theorem idxOf?_id_of_nodup :
    ∀ (tabs : List Tab) (j : Nat) (t : Tab),
      (tabs.map (fun x => x.id)).Nodup → tabs[j]? = some t →
      idxOf? (fun x => x.id == t.id) tabs = some j := by
  intro tabs
  induction tabs with
  | nil => intro j t _ hj; simp at hj
  | cons t0 ts ih =>
    intro j t hnd hj
    rw [List.map_cons, List.nodup_cons] at hnd
    cases j with
    | zero =>
      simp only [List.getElem?_cons_zero, Option.some.injEq] at hj
      subst hj
      simp [idxOf?]
    | succ j1 =>
      have hj1 : ts[j1]? = some t := by simpa using hj
      have htmem : t ∈ ts := List.mem_iff_getElem?.mpr ⟨j1, hj1⟩
      have hne : (t0.id == t.id) = false := by
        have hmem2 : t.id ∈ ts.map (fun x => x.id) := List.mem_map_of_mem _ htmem
        have h2 : t0.id ≠ t.id := fun he => hnd.1 (he ▸ hmem2)
        simp [h2]
      simp [idxOf?, hne, ih j1 t hnd.2 hj1]

/-- The reconciler preserves every tab's id. -/
theorem reconcile_map_id (tabs : List Tab) (ids : List String) :
    (reconcile tabs ids).map (fun t => t.id) = tabs.map (fun t => t.id) := by
  apply List.ext_getElem?
  intro n
  rw [List.getElem?_map, List.getElem?_map, reconcile_getElem?]
  cases tabs[n]? <;> rfl

/-- The reconciler preserves every tab's name. -/
theorem reconcile_map_name (tabs : List Tab) (ids : List String) :
    (reconcile tabs ids).map (fun t => t.name) = tabs.map (fun t => t.name) := by
  apply List.ext_getElem?
  intro n
  rw [List.getElem?_map, List.getElem?_map, reconcile_getElem?]
  cases tabs[n]? <;> rfl

/-- The Ungrouped tab keeps its index across a reconciliation. -/
theorem idxOf?_ungrouped_reconcile (tabs : List Tab) (ids : List String) :
    idxOf? (fun t => t.name == ungroupedName) (reconcile tabs ids) =
      idxOf? (fun t => t.name == ungroupedName) tabs := by
  rw [← idxOf?_map (fun t => t.name) (fun s => s == ungroupedName) (reconcile tabs ids),
      ← idxOf?_map (fun t => t.name) (fun s => s == ungroupedName) tabs,
      reconcile_map_name]

/-- A shortcut id with no target implies there is no Ungrouped tab. -/
theorem reconTarget_none_uIdx (tabs : List Tab) (sid : String)
    (h : reconTarget tabs sid = none) :
    idxOf? (fun t => t.name == ungroupedName) tabs = none := by
  unfold reconTarget targetIdx at h
  cases hm : mapGet (buildAssignments tabs) sid with
  | none => rw [hm] at h; exact h
  | some tid =>
    rw [hm] at h
    dsimp only at h
    cases hf : idxOf? (fun t => t.id == tid) tabs with
    | some i => rw [hf] at h; cases h
    | none => rw [hf] at h; exact h

/-- With duplicate-free tab ids, a second reconciliation targets every
processed id at the same tab as the first. -/
theorem reconTarget_reconcile (tabs : List Tab) (ids : List String)
    (hnd : (tabs.map (fun t => t.id)).Nodup) (sid : String) (hmem : sid ∈ ids) :
    reconTarget (reconcile tabs ids) sid = reconTarget tabs sid := by
  cases h : reconTarget tabs sid with
  | some j =>
    have hlt : j < tabs.length := reconTarget_lt_length tabs sid j h
    cases h0 : tabs[j]? with
    | none => rw [List.getElem?_eq_none_iff] at h0; omega
    | some t0 =>
      have hRj : (reconcile tabs ids)[j]? =
          some
            { t0 with
              shortcuts := ids.filter (fun s => decide (reconTarget tabs s = some j)) } := by
        rw [reconcile_getElem?, h0]
        rfl
      have hmemj : sid ∈ ({ t0 with
          shortcuts := ids.filter (fun s => decide (reconTarget tabs s = some j)) } :
            Tab).shortcuts :=
        (mem_reconcile_shortcuts tabs ids j _ hRj sid).mpr ⟨hmem, h⟩
      have huniq : ∀ (k : Nat) (tk : Tab), (reconcile tabs ids)[k]? = some tk →
          sid ∈ tk.shortcuts → k = j := by
        intro k tk hk hmk
        have hkk := (mem_reconcile_shortcuts tabs ids k tk hk sid).mp hmk
        exact (Option.some.inj (h.symm.trans hkk.2)).symm
      have hlo : lastOwner (reconcile tabs ids) sid = some t0.id := by
        have h5 := lastOwner_eq_of_unique sid (reconcile tabs ids) j
          { t0 with shortcuts := ids.filter (fun s => decide (reconTarget tabs s = some j)) }
          hRj hmemj huniq
        exact h5
      have hnd2 : ((reconcile tabs ids).map (fun t => t.id)).Nodup := by
        rw [reconcile_map_id]; exact hnd
      have hidx : idxOf? (fun x => x.id == t0.id) (reconcile tabs ids) = some j := by
        have h6 := idxOf?_id_of_nodup (reconcile tabs ids) j
          { t0 with shortcuts := ids.filter (fun s => decide (reconTarget tabs s = some j)) }
          hnd2 hRj
        exact h6
      unfold reconTarget targetIdx
      rw [mapGet_buildAssignments, hlo]
      dsimp only
      rw [hidx]
  | none =>
    have hUidx := reconTarget_none_uIdx tabs sid h
    have hnone : ∀ t ∈ reconcile tabs ids, sid ∉ t.shortcuts := by
      intro t ht hmem2
      obtain ⟨k, hk⟩ := List.mem_iff_getElem?.mp ht
      have hkk := (mem_reconcile_shortcuts tabs ids k t hk sid).mp hmem2
      rw [h] at hkk
      cases hkk.2
    have hlo : lastOwner (reconcile tabs ids) sid = none :=
      (lastOwner_eq_none_iff sid (reconcile tabs ids)).mpr hnone
    unfold reconTarget targetIdx
    rw [mapGet_buildAssignments, hlo]
    dsimp only
    rw [idxOf?_ungrouped_reconcile]
    exact hUidx

/-- C3, counterexample: with two tabs sharing an id (a corrupted persisted
state), the first reconciliation parks the shortcut in the Ungrouped tab but
the second one moves it to the other tab of the same id, so the persisted tab
records differ. -/
theorem reconcile_not_idempotent_cex :
    reconcile (reconcile [⟨"dup", "A", []⟩, ⟨"dup", "Ungrouped", []⟩] ["s"]) ["s"] ≠
      reconcile [⟨"dup", "A", []⟩, ⟨"dup", "Ungrouped", []⟩] ["s"] := by decide

/-- C3 (amended): for every state whose tab ids are pairwise distinct,
running the Membership Reconciler twice over the same resolved shortcut ids
yields byte-identical tab records after the second run as after the first. -/
theorem reconcile_idempotent (tabs : List Tab) (ids : List String)
    (hnd : (tabs.map (fun t => t.id)).Nodup) :
    reconcile (reconcile tabs ids) ids = reconcile tabs ids := by
  apply List.ext_getElem?
  intro j
  rw [reconcile_getElem?, reconcile_getElem?]
  have hfil : ids.filter (fun s => decide (reconTarget (reconcile tabs ids) s = some j)) =
      ids.filter (fun s => decide (reconTarget tabs s = some j)) :=
    List.filter_congr (fun s hs => by rw [reconTarget_reconcile tabs ids hnd s hs])
  cases tabs[j]? with
  | none => rfl
  | some t0 => simp [hfil]

/-- C3, witness: a well-formed two-tab state reconciles idempotently. -/
theorem reconcile_idempotent_witness :
    reconcile (reconcile [⟨"u", "Ungrouped", ["s1"]⟩, ⟨"w", "Work", ["s2"]⟩]
        ["s1", "s2", "s3"]) ["s1", "s2", "s3"] =
      reconcile [⟨"u", "Ungrouped", ["s1"]⟩, ⟨"w", "Work", ["s2"]⟩] ["s1", "s2", "s3"] :=
  reconcile_idempotent [⟨"u", "Ungrouped", ["s1"]⟩, ⟨"w", "Work", ["s2"]⟩]
    ["s1", "s2", "s3"] (by decide)

/-! ## C8: adding a shortcut normalizes the url -/

/-- C8: saving a new shortcut with a non-empty trimmed name and a non-empty
trimmed url that lacks an http(s) scheme appends the record with `https://`
prefixed to the url to the persisted shortcut list; and in the scenario where
the default tab heads the list and is both active and selected, the fresh id
ends up in the default tab's membership list. -/
theorem saveNewShortcut_normalizes (st : AppState)
    (rawName rawUrl newId selectedTabId : String)
    (hn : trimChars rawName ≠ "") (hu2 : trimChars rawUrl ≠ "")
    (hs : hasHttpScheme (trimChars rawUrl) = false) :
    ((saveNewShortcut st rawName rawUrl newId selectedTabId).shortcuts =
      st.shortcuts ++ [⟨newId, trimChars rawName, "https://" ++ trimChars rawUrl⟩]) ∧
    (∀ (u : Tab) (rest : List Tab), st.tabs = u :: rest → u.name = ungroupedName →
      st.activeTabId = some u.id → selectedTabId = u.id →
      ∃ t : Tab, ((saveNewShortcut st rawName rawUrl newId selectedTabId).tabs.find?
          (fun t2 => t2.name == ungroupedName)) = some t ∧ newId ∈ t.shortcuts) := by
  have hcond : ¬(trimChars rawName = "" ∨ trimChars rawUrl = "") := fun h => h.elim hn hu2
  have hschm : ¬(hasHttpScheme (trimChars rawUrl) = true) := by simp [hs]
  constructor
  · unfold saveNewShortcut
    rw [if_neg hcond, if_neg hschm]
    dsimp only
    split
    · split
      · split <;> simp [addShortcutOp]
      · simp [addShortcutOp]
    · simp [addShortcutOp]
  · intro u rest htabs huname hact hsel
    subst hsel
    have hnu : (u.name == ungroupedName) = true := by simp [huname]
    unfold saveNewShortcut
    rw [if_neg hcond, if_neg hschm]
    simp [addShortcutOp, htabs, hact, idxOf?, pushShortcut, removeFromTabAt,
      List.find?, hnu]

/-- C8, witness: adding {name:"Example", url:"example.com"} stores the url
"https://example.com" and puts the fresh id into the default tab's
membership list. -/
theorem saveNewShortcut_normalizes_witness :
    ((saveNewShortcut ⟨[], [⟨"u", "Ungrouped", []⟩], some "u"⟩
        "Example" "example.com" "123" "u").shortcuts =
      [⟨"123", "Example", "https://example.com"⟩]) ∧
    (∃ t : Tab, ((saveNewShortcut ⟨[], [⟨"u", "Ungrouped", []⟩], some "u"⟩
        "Example" "example.com" "123" "u").tabs.find?
          (fun t2 => t2.name == ungroupedName)) = some t ∧ "123" ∈ t.shortcuts) := by
  have h := saveNewShortcut_normalizes ⟨[], [⟨"u", "Ungrouped", []⟩], some "u"⟩
    "Example" "example.com" "123" "u" (by decide) (by decide) (by decide)
  refine ⟨?_, h.2 ⟨"u", "Ungrouped", []⟩ [] rfl rfl rfl rfl⟩
  rw [h.1]
  decide

end EclipseNewTab
